import Mathlib

/-!
Verification development for the bring-up phase of the os64 kernel
(src/kernel/core/init.cc).  The C++ code is shallowly embedded: pointers
into the firmware memory map become byte offsets from the map base, the
machine's memory and leaf page-table entries become total functions on
addresses, and the orchestration sequence of OsInitialize becomes an
explicit event trace.  Helper routines that init.cc calls but whose
bodies live outside the provided sources (uefi_next_memory_descriptor,
mm::GetPresentPte, memzero, the PE header structures) are modelled from
the specification, as marked on each definition.
-/

/-- Page size of the target architecture (4 KiB pages, `page_size` in the
source). -/
def page_size : Nat := 4096

/-!
## Firmware memory map reader

`IterateMemoryDescriptors` (init.cc lines 20-28):

    for (auto desc = m.map;
        desc < uefi_next_memory_descriptor(m.map, m.size);
        desc = uefi_next_memory_descriptor(desc, m.descriptor_size))
    { callback(desc); }

A descriptor pointer is embedded as its byte offset from `m.map`, so the
loop starts at offset 0, runs while the offset is below `m.size`, and
advances by `m.descriptor_size` each iteration.
-/

/-- Modelled from the spec: one firmware memory-region descriptor
(`uefi::memory_descriptor`, whose definition is outside the provided
sources): region type, physical start, virtual start, page count and
attribute bitset. -/
structure MemoryDescriptor where
  type : Nat
  physical_start : Nat
  virtual_start : Nat
  number_of_pages : Nat
  attr : Nat
deriving DecidableEq

/-- Modelled from the spec: the firmware memory map handle (`MemoryMap`):
a buffer of descriptors, the declared per-descriptor stride
(`descriptor_size`) and the total byte size.  `descAt o` is the
descriptor read at byte offset `o` from the buffer base. -/
structure MemoryMap where
  descAt : Nat → MemoryDescriptor
  descriptor_size : Nat
  size : Nat

/-- Modelled from the spec: `uefi_next_memory_descriptor p s` advances a
descriptor pointer by `s` bytes; on offsets this is addition. -/
def uefiNextOffset (o s : Nat) : Nat := o + s

/-- The byte offsets visited by the loop of `IterateMemoryDescriptors`,
rendered with explicit fuel so the function is total; the loop itself can
fail to terminate (see `imdOffsetAfter` for the raw step relation).  Fuel
`size` is enough for every positive stride. -/
def imdVisit (stride size : Nat) : Nat → Nat → List Nat
  | 0, _ => []
  | fuel + 1, o =>
    if o < size then o :: imdVisit stride size fuel (uefiNextOffset o stride) else []

/-- Offsets visited by `IterateMemoryDescriptors` on a map with the given
stride and total size. -/
def imdVisited (stride size : Nat) : List Nat := imdVisit stride size size 0

/-- The descriptor cursor of `IterateMemoryDescriptors` after `n` loop
iterations: it starts at the map base (offset 0) and each iteration
applies `uefi_next_memory_descriptor desc descriptor_size`. -/
def imdOffsetAfter (stride : Nat) : Nat → Nat
  | 0 => 0
  | n + 1 => uefiNextOffset (imdOffsetAfter stride n) stride

/-- The loop of `IterateMemoryDescriptors` exits: after some number of
iterations the cursor reaches the end bound `size`. -/
def imdLoopExits (stride size : Nat) : Prop :=
  ∃ n, ¬ imdOffsetAfter stride n < size

/-- Modelled from the spec: the minimum valid descriptor size, i.e. the
byte size of the minimal `uefi::memory_descriptor` structure
(a 32-bit type, padding, and four 64-bit fields). -/
def minDescriptorSize : Nat := 40

/-- Modelled from the spec: the firmware-runtime attribute bit
(`uefi::memory_runtime`) tested by the mapping pass. -/
def memory_runtime : Nat := 0x8000000000000000

/-- A `mm::MapPages` request recorded by the memory-map pass: virtual
start, physical start, page count. -/
structure MapReq where
  va : Nat
  pa : Nat
  count : Nat
deriving DecidableEq

/-- The memory-map pass of `OsInitialize` (init.cc lines 99-103): iterate
the descriptors and call `MapPages(pool, desc->virtual_start,
desc->physical_start, desc->number_of_pages)` exactly for those whose
attribute bitset has `uefi::memory_runtime` set.  There is no validation
of `descriptor_size` anywhere on this path. -/
def osRuntimeMapPass (m : MemoryMap) : List MapReq :=
  (imdVisited m.descriptor_size m.size).filterMap (fun o =>
    let d := m.descAt o
    if d.attr &&& memory_runtime ≠ 0 then
      some ⟨d.virtual_start, d.physical_start, d.number_of_pages⟩
    else none)

/-!
## Machine state and the page-table leaf entries

The image hardener reads and writes kernel memory (zero-filling) and
mutates leaf page-table entries through `mm::GetPresentPte`.  Memory is a
total function from virtual byte address to byte value; the leaf entry of
a virtual address is indexed by its page number `va / page_size`.
-/

/-- A leaf page-table entry: the `present` and `writable` bits touched by
the code, the physical target, and the remaining (unmodelled) bits lumped
into `rest`. -/
structure Pte where
  present : Bool
  writable : Bool
  phys : Nat
  rest : Nat
deriving DecidableEq

/-- The permission edit of the hardening loop, `pte->writable = false`
(init.cc line 166): clear the writable bit, leave every other field. -/
def clearW (e : Pte) : Pte := { e with writable := false }

/-- The machine state the hardening pass acts on: byte contents of
virtual memory, and the leaf page-table entry of each page. -/
structure MachineState where
  mem : Nat → Nat
  pte : Nat → Pte

/-- Modelled from the spec: `mm::GetPresentPte pool va` (declared in
mm.h, body outside the provided sources) walks the hierarchy and yields
the leaf entry for an already-mapped address; it fails (a fatal
condition) when the walk finds the entry absent. -/
def getPresentPte (s : MachineState) (va : Nat) : Option Pte :=
  if (s.pte (va / page_size)).present then some (s.pte (va / page_size)) else none

/-- Writing a leaf page-table entry back through the pointer returned by
`mm::GetPresentPte`. -/
def setPte (s : MachineState) (p : Nat) (e : Pte) : MachineState :=
  { s with pte := fun q => if q = p then e else s.pte q }

/-- Modelled from the spec: `memzero start size` (libc, outside the
provided sources) zero-fills the `size` bytes starting at `start`. -/
def memzero (s : MachineState) (start size : Nat) : MachineState :=
  { s with mem := fun a => if start ≤ a ∧ a < start + size then 0 else s.mem a }

/-!
## The kernel image (portable-executable layout)

Modelled from the spec: the PE header structures (`IMAGE_DOS_HEADER`,
`IMAGE_NT_HEADERS`, `IMAGE_SECTION_HEADER`) and their magic constants are
declared outside the provided sources; the spec describes them as a
two-field magic/offset pair locating an extended header validated by a
second magic, followed by a section table whose entries carry a virtual
address, a size and a characteristics bitset.  The section's fixed-width
name is read by the code only to print diagnostics, so it is omitted.
-/

/-- The primary (DOS) header magic, `IMAGE_DOS_SIGNATURE`. -/
def IMAGE_DOS_SIGNATURE : Nat := 0x5A4D

/-- The extended (NT) header magic, `IMAGE_NT_SIGNATURE`. -/
def IMAGE_NT_SIGNATURE : Nat := 0x4550

/-- The discardable-section characteristics flag,
`IMAGE_SCN_MEM_DISCARDABLE`. -/
def IMAGE_SCN_MEM_DISCARDABLE : Nat := 0x02000000

/-- The writable-section characteristics flag, `IMAGE_SCN_MEM_WRITE`. -/
def IMAGE_SCN_MEM_WRITE : Nat := 0x80000000

/-- One section-table entry: relative virtual address, virtual size
(`Misc.VirtualSize`) and characteristics bitset. -/
structure ImageSection where
  VirtualAddress : Nat
  VirtualSize : Nat
  Characteristics : Nat
deriving DecidableEq

/-- The primary (DOS) header: magic and the file offset of the extended
header. -/
structure IMAGE_DOS_HEADER where
  e_magic : Nat
  e_lfanew : Nat

/-- The extended (NT) header: its magic, the section count
(`FileHeader.NumberOfSections`), and the section table that follows it
(`IMAGE_FIRST_SECTION`), read entry by entry. -/
structure IMAGE_NT_HEADERS where
  Signature : Nat
  NumberOfSections : Nat
  sectionAt : Nat → ImageSection

/-- A loaded kernel image: the DOS header at its base and, at each file
offset, the NT-header candidate found there (the code reads it at
`base + e_lfanew`). -/
structure KernelImage where
  dos : IMAGE_DOS_HEADER
  ntAt : Nat → IMAGE_NT_HEADERS

/-- `ImageNtHeaders` (init.cc lines 49-60): reject the image unless the
DOS magic matches, locate the NT headers at `base + e_lfanew`, reject
unless the NT magic matches, otherwise yield them.  The C source returns
`nullptr` on rejection, embedded here as `none`.  (Its two pointer-null
checks concern the base pointer itself and have no counterpart in this
embedding.) -/
def ImageNtHeaders (img : KernelImage) : Option IMAGE_NT_HEADERS :=
  if img.dos.e_magic = IMAGE_DOS_SIGNATURE then
    let nt := img.ntAt img.dos.e_lfanew
    if nt.Signature = IMAGE_NT_SIGNATURE then some nt else none
  else none

/-- The first `NumberOfSections` entries of the section table, in table
order, as walked by the loop of init.cc lines 137-171. -/
def sectionList (nt : IMAGE_NT_HEADERS) : List ImageSection :=
  (List.range nt.NumberOfSections).map nt.sectionAt

/-!
## The image-hardening pass (init.cc lines 131-171)

For each section in table order: if discardable, `memzero` its whole
virtual extent; else if not writable, walk its pages, fetch each present
leaf entry, clear its writable bit and flush that one translation;
otherwise do nothing.  The write-protect loop is recorded as an event
trace of per-page edits and flushes so the flush discipline is a provable
statement.
-/

/-- Fatal outcomes of the pass: the unchecked dereference of a null
`ImageNtHeaders` result (undefined behavior in the source), and a
permission edit presented with an unmapped page (fatal per the spec's
`get_present_pte` contract). -/
inductive Fatal where
  | nullDeref
  | unmappedPte
deriving DecidableEq

/-- Observable events of the write-protect loop: a permission edit of the
leaf entry backing a page, and the translation-cache flush
(`x64::TlbFlushAddress`) of one page. -/
inductive WpEv where
  | edit (page : Nat)
  | flush (page : Nat)
deriving DecidableEq

/-- Fuel-bounded page cursor of the write-protect loop,
`for (auto page = start; page < end; page += page_size)`: the pages
visited, starting at `pg`, while below `e`, advancing one page at a
time.  Fuel `e - pg` always suffices because each step advances by
`page_size ≥ 1`. -/
def pagesFromAux : Nat → Nat → Nat → List Nat
  | 0, _, _ => []
  | fuel + 1, pg, e => if pg < e then pg :: pagesFromAux fuel (pg + page_size) e else []

/-- The pages visited by the write-protect loop over `[pg, e)`. -/
def pagesFrom (pg e : Nat) : List Nat := pagesFromAux (e - pg) pg e

/-- The write-protect loop body (init.cc lines 163-168): for each page,
fetch the present leaf entry, clear its writable bit, flush that page's
translation, then move to the next page. -/
def wpLoop : List Nat → MachineState → Except Fatal (MachineState × List WpEv)
  | [], s => .ok (s, [])
  | pg :: rest, s =>
    match getPresentPte s pg with
    | none => .error .unmappedPte
    | some e =>
      match wpLoop rest (setPte s (pg / page_size) { e with writable := false }) with
      | .error f => .error f
      | .ok (t, evs) => .ok (t, WpEv.edit pg :: WpEv.flush pg :: evs)

/-- Processing of one section (the loop body of init.cc lines 137-171):
discardable sections are zero-filled over
`[base + VirtualAddress, base + VirtualAddress + VirtualSize)`;
non-writable sections get the write-protect loop over the pages of that
same extent; writable non-discardable sections are skipped. -/
def hardenSection (base : Nat) (sec : ImageSection) (s : MachineState) :
    Except Fatal (MachineState × List WpEv) :=
  if sec.Characteristics &&& IMAGE_SCN_MEM_DISCARDABLE ≠ 0 then
    .ok (memzero s (base + sec.VirtualAddress) sec.VirtualSize, [])
  else if sec.Characteristics &&& IMAGE_SCN_MEM_WRITE = 0 then
    wpLoop (pagesFrom (base + sec.VirtualAddress)
      (base + sec.VirtualAddress + sec.VirtualSize)) s
  else
    .ok (s, [])

/-- The section loop of the hardening pass, in table order, threading the
machine state and concatenating the per-section event traces. -/
def hardenSections (base : Nat) : List ImageSection → MachineState →
    Except Fatal (MachineState × List WpEv)
  | [], s => .ok (s, [])
  | sec :: rest, s =>
    match hardenSection base sec s with
    | .error f => .error f
    | .ok (t, ev) =>
      match hardenSections base rest t with
      | .error f => .error f
      | .ok (u, ev2) => .ok (u, ev ++ ev2)

/-- The hardening entry of `OsInitialize` (init.cc lines 134-171): obtain
the NT headers of the kernel image and walk the section table.  The
source never checks `ImageNtHeaders` for `nullptr`; on a rejected image
it reads `FileHeader.NumberOfSections` through the null pointer, which is
the crash embedded as `Fatal.nullDeref`. -/
def osHardenPass (base : Nat) (img : KernelImage) (s : MachineState) :
    Except Fatal (MachineState × List WpEv) :=
  match ImageNtHeaders img with
  | none => .error .nullDeref
  | some nt => hardenSections base (sectionList nt) s

/-- The event trace the hardening pass emits for one section when it
succeeds: nothing for discardable or writable sections, and the per-page
edit/flush pairs for write-protected ones. -/
def secEvs (base : Nat) (sec : ImageSection) : List WpEv :=
  if sec.Characteristics &&& IMAGE_SCN_MEM_DISCARDABLE ≠ 0 then []
  else if sec.Characteristics &&& IMAGE_SCN_MEM_WRITE = 0 then
    (pagesFrom (base + sec.VirtualAddress)
      (base + sec.VirtualAddress + sec.VirtualSize)).flatMap
      (fun p => [WpEv.edit p, WpEv.flush p])
  else []

/-- The full event trace of a successful hardening pass, per section in
table order. -/
def hardenEvs (base : Nat) (ss : List ImageSection) : List WpEv :=
  ss.flatMap (secEvs base)

/-!
## The bring-up sequence of OsInitialize (init.cc lines 62-175)

The orchestration is embedded as the trace of externally visible steps in
program order.  The steps before the hardening pass are opaque events;
the memory-map pass contributes one mapping event per runtime-attributed
descriptor, and the hardening pass contributes its zero/edit/flush
events.
-/

/-- The observable steps of `OsInitialize`, in source order. -/
inductive InitEv where
  | gfxInit
  | serialInit
  | parseMadt
  | copyBlock
  | allocRoot
  | mapKernelImage
  | mapPtPool
  | mapFrameBuffer
  | mapHpet
  | mapIoApic
  | mapLocalApic
  | mapRuntime (va pa count : Nat)
  | writeCr3
  | setFbAddr
  | cpuInit
  | timerInit
  | ps2Init
  | noPs2
  | zeroSec (start size : Nat)
  | pteEdit (page : Nat)
  | tlbFlush (page : Nat)
  | unmaskInterrupts
  | idle
deriving DecidableEq

/-- The hardening pass as bring-up events: one zeroing event per
discardable section, and the per-page edit/flush pairs of each
write-protected section, in table order. -/
def hardenInitEvs (base : Nat) (ss : List ImageSection) : List InitEv :=
  ss.flatMap (fun sec =>
    if sec.Characteristics &&& IMAGE_SCN_MEM_DISCARDABLE ≠ 0 then
      [InitEv.zeroSec (base + sec.VirtualAddress) sec.VirtualSize]
    else if sec.Characteristics &&& IMAGE_SCN_MEM_WRITE = 0 then
      (pagesFrom (base + sec.VirtualAddress)
        (base + sec.VirtualAddress + sec.VirtualSize)).flatMap
        (fun p => [InitEv.pteEdit p, InitEv.tlbFlush p])
    else [])

/-- The bring-up trace of `OsInitialize` (init.cc lines 62-175) in source
order: graphics, serial, MADT parse, loader-block copy, root allocation,
the mapping calls for the kernel image and the page-table pool, the
frame-buffer and device windows, the runtime-descriptor pass, the cr3
write, post-activation device setup, the PS/2 presence check, the
hardening pass, the interrupt unmask, and idle. -/
def osInitTrace (m : MemoryMap) (i8042 : Bool) (base : Nat)
    (ss : List ImageSection) : List InitEv :=
  [InitEv.gfxInit, InitEv.serialInit, InitEv.parseMadt, InitEv.copyBlock,
    InitEv.allocRoot, InitEv.mapKernelImage, InitEv.mapPtPool,
    InitEv.mapFrameBuffer, InitEv.mapHpet, InitEv.mapIoApic, InitEv.mapLocalApic]
  ++ (osRuntimeMapPass m).map (fun r => InitEv.mapRuntime r.va r.pa r.count)
  ++ [InitEv.writeCr3, InitEv.setFbAddr, InitEv.cpuInit, InitEv.timerInit]
  ++ [if i8042 then InitEv.ps2Init else InitEv.noPs2]
  ++ hardenInitEvs base ss
  ++ [InitEv.unmaskInterrupts, InitEv.idle]

/-!
## Concrete inputs used by the witnesses
-/

/-- A present, writable leaf entry used as the uniform initial
page-table state of the demonstration machine. -/
def pteRW : Pte := ⟨true, true, 7, 3⟩

/-- A demonstration machine state: every byte reads 0xFF and every page
is mapped present and writable. -/
def demoS0 : MachineState := ⟨fun _ => 255, fun _ => pteRW⟩

/-- Section A of the spec's end-to-end scenario: discardable, two pages. -/
def secA : ImageSection := ⟨0, 2 * page_size, IMAGE_SCN_MEM_DISCARDABLE⟩

/-- Section B of the spec's end-to-end scenario: neither discardable nor
writable, one page. -/
def secB : ImageSection := ⟨2 * page_size, page_size, 0⟩

/-- A writable, non-discardable section. -/
def secC : ImageSection := ⟨3 * page_size, page_size, IMAGE_SCN_MEM_WRITE⟩

/-- The demonstration section table. -/
def demoSections : List ImageSection := [secA, secB]

/-- The machine state after hardening `demoSections` from `demoS0` at
image base 0: section A's two pages zeroed, section B's page entry made
read-only. -/
def demoS1 : MachineState :=
  setPte (memzero demoS0 0 (2 * page_size)) (2 * page_size / page_size)
    { pteRW with writable := false }

/-- The event trace of hardening `demoSections`: one edit/flush pair for
section B's single page. -/
def demoEv : List WpEv := [WpEv.edit (2 * page_size), WpEv.flush (2 * page_size)]

/-- An image whose primary (DOS) header magic is wrong. -/
def c4BadDosImage : KernelImage :=
  ⟨⟨0, 64⟩, fun _ => ⟨IMAGE_NT_SIGNATURE, 1, fun _ => secA⟩⟩

/-- An image whose DOS magic is right but whose extended (NT) header
magic is wrong. -/
def c4BadNtImage : KernelImage :=
  ⟨⟨IMAGE_DOS_SIGNATURE, 64⟩, fun _ => ⟨0, 1, fun _ => secA⟩⟩

/-- A runtime-attributed descriptor used by the malformed-map
counterexample. -/
def rtDesc : MemoryDescriptor := ⟨5, 0x1000, 0xFFFF800000001000, 4, memory_runtime⟩

/-- A memory map whose declared stride (8 bytes) is smaller than the
minimum descriptor size: two strided reads fit in its 16 bytes. -/
def badStrideMap : MemoryMap := ⟨fun _ => rtDesc, 8, 16⟩

/-- The post-state contract of a completed hardening pass: every
discardable section reads all-zero over its extent, and every page of a
non-discardable, non-writable section has a present, non-writable leaf
entry. -/
def HardenedFor (b : Nat) (ss : List ImageSection) (s : MachineState) : Prop :=
  ∀ sec ∈ ss,
    (sec.Characteristics &&& IMAGE_SCN_MEM_DISCARDABLE ≠ 0 →
      ∀ a, b + sec.VirtualAddress ≤ a → a < b + sec.VirtualAddress + sec.VirtualSize →
        s.mem a = 0) ∧
    (sec.Characteristics &&& IMAGE_SCN_MEM_DISCARDABLE = 0 →
      sec.Characteristics &&& IMAGE_SCN_MEM_WRITE = 0 →
      ∀ p ∈ pagesFrom (b + sec.VirtualAddress)
          (b + sec.VirtualAddress + sec.VirtualSize),
        (s.pte (p / page_size)).present = true ∧
        (s.pte (p / page_size)).writable = false)

/-! ### Lemmas about the iteration -/

theorem imdVisit_eq (stride size : Nat) (hs : 0 < stride) :
    ∀ (q : Nat) (fuel o : Nat), q ≤ fuel → size = o + q * stride →
      imdVisit stride size fuel o = (List.range q).map (fun i => o + i * stride) := by
  intro q
  induction q with
  | zero =>
    intro fuel o _ hsz
    cases fuel with
    | zero => simp [imdVisit]
    | succ f =>
      rw [imdVisit, if_neg (by omega)]
      simp
  | succ q ih =>
    intro fuel o hq hsz
    cases fuel with
    | zero => omega
    | succ f =>
      have ho : o < size := by
        have : 0 < (q + 1) * stride := by positivity
        omega
      have hrec : imdVisit stride size f (uefiNextOffset o stride) =
          (List.range q).map (fun i => (o + stride) + i * stride) := by
        apply ih f (o + stride) (by omega)
        have : (q + 1) * stride = q * stride + stride := by ring
        omega
      rw [imdVisit, if_pos ho, hrec]
      rw [List.range_succ_eq_map]
      simp only [List.map_cons, List.map_map]
      refine congrArg₂ List.cons (by omega) ?_
      refine congrArg (fun f => List.map f (List.range q)) ?_
      funext i
      simp only [Function.comp]
      rw [Nat.succ_mul]
      omega

theorem imdVisited_eq (stride size : Nat) (hs : 0 < stride)
    (hdvd : stride ∣ size) :
    imdVisited stride size = (List.range (size / stride)).map (fun i => i * stride) := by
  have h1 : size = 0 + size / stride * stride := by
    rw [Nat.div_mul_cancel hdvd]; omega
  have h2 : size / stride ≤ size := Nat.div_le_self _ _
  rw [imdVisited, imdVisit_eq stride size hs (size / stride) size 0 h2 h1]
  simp

/-! ### Basic facts about the embedding -/

theorem imdOffsetAfter_eq (stride n : Nat) : imdOffsetAfter stride n = n * stride := by
  induction n with
  | zero => simp [imdOffsetAfter]
  | succ n ih => rw [imdOffsetAfter, uefiNextOffset, ih, Nat.succ_mul]

theorem pagesFromAux_mem (fuel : Nat) :
    ∀ pg e p, e - pg ≤ fuel →
      (p ∈ pagesFromAux fuel pg e ↔ ∃ k, p = pg + page_size * k ∧ p < e) := by
  induction fuel with
  | zero =>
    intro pg e p hf
    simp only [pagesFromAux, List.not_mem_nil, false_iff]
    rintro ⟨k, rfl, hlt⟩
    have : 0 < page_size * k ∨ page_size * k = 0 := by omega
    rcases this with h | h
    · omega
    · omega
  | succ fuel ih =>
    intro pg e p hf
    by_cases h : pg < e
    · rw [pagesFromAux, if_pos h]
      have hrec := ih (pg + page_size) e p (by simp [page_size] at *; omega)
      simp only [List.mem_cons, hrec]
      constructor
      · rintro (rfl | ⟨k, rfl, hlt⟩)
        · exact ⟨0, by simp, h⟩
        · exact ⟨k + 1, by rw [Nat.mul_succ]; omega, hlt⟩
      · rintro ⟨k, rfl, hlt⟩
        cases k with
        | zero => left; simp
        | succ k => right; exact ⟨k, by rw [Nat.mul_succ]; omega, hlt⟩
    · rw [pagesFromAux, if_neg h]
      simp only [List.not_mem_nil, false_iff]
      rintro ⟨k, rfl, hlt⟩
      omega

theorem pagesFrom_mem (pg e p : Nat) :
    p ∈ pagesFrom pg e ↔ ∃ k, p = pg + page_size * k ∧ p < e :=
  pagesFromAux_mem (e - pg) pg e p (Nat.le_refl _)

theorem MachineState.eq_of {s t : MachineState} (hm : ∀ a, s.mem a = t.mem a)
    (hp : ∀ q, s.pte q = t.pte q) : s = t := by
  cases s with
  | mk ms ps =>
    cases t with
    | mk mt pt =>
      simp only [MachineState.mk.injEq]
      exact ⟨funext hm, funext hp⟩

theorem setPte_mem (s : MachineState) (q : Nat) (e : Pte) :
    (setPte s q e).mem = s.mem := rfl

theorem setPte_self (s : MachineState) (q : Nat) : setPte s q (s.pte q) = s := by
  refine MachineState.eq_of (fun a => rfl) (fun r => ?_)
  by_cases h : r = q <;> simp [setPte, h]

theorem memzero_eq_self (s : MachineState) (start size : Nat)
    (h : ∀ a, start ≤ a → a < start + size → s.mem a = 0) :
    memzero s start size = s := by
  refine MachineState.eq_of (fun a => ?_) (fun q => rfl)
  by_cases ha : start ≤ a ∧ a < start + size
  · simp only [memzero, if_pos ha]
    exact (h a ha.1 ha.2).symm
  · simp only [memzero, if_neg ha]

theorem clearW_clearW (e : Pte) : clearW (clearW e) = clearW e := rfl

theorem clearW_present (e : Pte) : (clearW e).present = e.present := rfl

theorem clearW_eq_self (e : Pte) (h : e.writable = false) : clearW e = e := by
  cases e
  simp only [clearW] at *
  simp_all

theorem getPresentPte_some {s : MachineState} {va : Nat} {e : Pte}
    (h : getPresentPte s va = some e) :
    e = s.pte (va / page_size) ∧ (s.pte (va / page_size)).present = true := by
  by_cases hp : (s.pte (va / page_size)).present
  · rw [getPresentPte, if_pos hp] at h
    exact ⟨(Option.some.inj h).symm, hp⟩
  · rw [getPresentPte, if_neg hp] at h
    cases h

/-! ### The write-protect loop -/

theorem wpLoop_cons_ok {pg : Nat} {rest : List Nat} {s t : MachineState}
    {ev : List WpEv} (h : wpLoop (pg :: rest) s = .ok (t, ev)) :
    ∃ ev2, (s.pte (pg / page_size)).present = true ∧
      wpLoop rest (setPte s (pg / page_size) (clearW (s.pte (pg / page_size)))) =
        .ok (t, ev2) ∧
      ev = WpEv.edit pg :: WpEv.flush pg :: ev2 := by
  cases hg : getPresentPte s pg with
  | none =>
    simp only [wpLoop, hg] at h
    exact Except.noConfusion h
  | some e =>
    obtain ⟨he, hp⟩ := getPresentPte_some hg
    subst he
    simp only [wpLoop, hg] at h
    cases hr : wpLoop rest (setPte s (pg / page_size)
        { s.pte (pg / page_size) with writable := false }) with
    | error f =>
      rw [hr] at h
      exact Except.noConfusion h
    | ok pr =>
      obtain ⟨u, ev2⟩ := pr
      rw [hr] at h
      simp only [Except.ok.injEq, Prod.mk.injEq] at h
      obtain ⟨rfl, rfl⟩ := h
      exact ⟨ev2, hp, by simpa [clearW] using hr, rfl⟩

theorem wpLoop_mem_eq {ps : List Nat} {s t : MachineState} {ev : List WpEv}
    (h : wpLoop ps s = .ok (t, ev)) : t.mem = s.mem := by
  induction ps generalizing s ev with
  | nil =>
    simp only [wpLoop, Except.ok.injEq, Prod.mk.injEq] at h
    rw [← h.1]
  | cons pg rest ih =>
    obtain ⟨ev2, _, hrec, _⟩ := wpLoop_cons_ok h
    rw [ih hrec, setPte_mem]

theorem wpLoop_pte_evolve {ps : List Nat} {s t : MachineState} {ev : List WpEv}
    (h : wpLoop ps s = .ok (t, ev)) (q : Nat) :
    t.pte q = s.pte q ∨ t.pte q = clearW (s.pte q) := by
  induction ps generalizing s ev with
  | nil =>
    simp only [wpLoop, Except.ok.injEq, Prod.mk.injEq] at h
    rw [← h.1]
    exact Or.inl rfl
  | cons pg rest ih =>
    obtain ⟨ev2, _, hrec, _⟩ := wpLoop_cons_ok h
    rcases ih hrec with h2 | h2 <;> rw [h2] <;>
      by_cases hq : q = pg / page_size <;>
        simp [setPte, hq, clearW_clearW]

theorem wpLoop_present_eq {ps : List Nat} {s t : MachineState} {ev : List WpEv}
    (h : wpLoop ps s = .ok (t, ev)) (q : Nat) :
    (t.pte q).present = (s.pte q).present := by
  rcases wpLoop_pte_evolve h q with h2 | h2 <;> rw [h2]
  exact clearW_present _

theorem wpLoop_events {ps : List Nat} {s t : MachineState} {ev : List WpEv}
    (h : wpLoop ps s = .ok (t, ev)) :
    ev = ps.flatMap (fun p => [WpEv.edit p, WpEv.flush p]) := by
  induction ps generalizing s ev with
  | nil =>
    simp only [wpLoop, Except.ok.injEq, Prod.mk.injEq] at h
    rw [← h.2]
    rfl
  | cons pg rest ih =>
    obtain ⟨ev2, _, hrec, rfl⟩ := wpLoop_cons_ok h
    rw [ih hrec]
    rfl

theorem wpLoop_present_init {ps : List Nat} {s t : MachineState} {ev : List WpEv}
    (h : wpLoop ps s = .ok (t, ev)) :
    ∀ p ∈ ps, (s.pte (p / page_size)).present = true := by
  induction ps generalizing s ev with
  | nil => intro p hp; cases hp
  | cons pg rest ih =>
    obtain ⟨ev2, hp0, hrec, _⟩ := wpLoop_cons_ok h
    intro p hp
    rcases List.mem_cons.1 hp with rfl | hp
    · exact hp0
    · have h2 := ih hrec p hp
      by_cases hq : p / page_size = pg / page_size
      · rw [hq]
        exact hp0
      · rw [show ((setPte s (pg / page_size) (clearW (s.pte (pg / page_size)))).pte
            (p / page_size)) = s.pte (p / page_size) by simp [setPte, hq]] at h2
        exact h2

theorem wpLoop_writable_mono {ps : List Nat} {s t : MachineState} {ev : List WpEv}
    (h : wpLoop ps s = .ok (t, ev)) (q : Nat)
    (hw : (s.pte q).writable = false) : (t.pte q).writable = false := by
  rcases wpLoop_pte_evolve h q with h2 | h2 <;> rw [h2]
  · exact hw
  · rfl

theorem wpLoop_cleared {ps : List Nat} {s t : MachineState} {ev : List WpEv}
    (h : wpLoop ps s = .ok (t, ev)) :
    ∀ p ∈ ps, (t.pte (p / page_size)).writable = false := by
  induction ps generalizing s ev with
  | nil => intro p hp; cases hp
  | cons pg rest ih =>
    obtain ⟨ev2, hp0, hrec, _⟩ := wpLoop_cons_ok h
    intro p hp
    rcases List.mem_cons.1 hp with rfl | hp
    · refine wpLoop_writable_mono hrec (p / page_size) ?_
      simp [setPte, clearW]
    · exact ih hrec p hp

theorem wpLoop_final {ps : List Nat} {s t : MachineState} {ev : List WpEv}
    (h : wpLoop ps s = .ok (t, ev)) :
    ∀ p ∈ ps, t.pte (p / page_size) = clearW (s.pte (p / page_size)) := by
  intro p hp
  rcases wpLoop_pte_evolve h (p / page_size) with h2 | h2
  · have hw := wpLoop_cleared h p hp
    rw [h2] at hw ⊢
    exact (clearW_eq_self _ hw).symm
  · exact h2

theorem wpLoop_fixed {ps : List Nat} {s : MachineState}
    (h : ∀ p ∈ ps, (s.pte (p / page_size)).present = true ∧
      (s.pte (p / page_size)).writable = false) :
    wpLoop ps s = .ok (s, ps.flatMap (fun p => [WpEv.edit p, WpEv.flush p])) := by
  induction ps with
  | nil => rfl
  | cons pg rest ih =>
    obtain ⟨hp0, hw0⟩ := h pg (List.mem_cons_self pg rest)
    have hget : getPresentPte s pg = some (s.pte (pg / page_size)) := by
      rw [getPresentPte, if_pos]
      exact hp0
    have hfix : setPte s (pg / page_size)
        { s.pte (pg / page_size) with writable := false } = s := by
      have h1 : ({ s.pte (pg / page_size) with writable := false } : Pte) =
          s.pte (pg / page_size) := clearW_eq_self _ hw0
      rw [h1]
      exact setPte_self s (pg / page_size)
    simp only [wpLoop, hget, hfix,
      ih (fun p hp => h p (List.mem_cons_of_mem pg hp))]
    rfl

/-! ### The per-section step of the hardening pass -/

theorem hardenSection_disc {sec : ImageSection}
    (hd : sec.Characteristics &&& IMAGE_SCN_MEM_DISCARDABLE ≠ 0)
    (b : Nat) (s : MachineState) :
    hardenSection b sec s =
      .ok (memzero s (b + sec.VirtualAddress) sec.VirtualSize, []) := by
  rw [hardenSection, if_pos hd]

theorem hardenSection_wp {sec : ImageSection}
    (hd : sec.Characteristics &&& IMAGE_SCN_MEM_DISCARDABLE = 0)
    (hw : sec.Characteristics &&& IMAGE_SCN_MEM_WRITE = 0)
    (b : Nat) (s : MachineState) :
    hardenSection b sec s =
      wpLoop (pagesFrom (b + sec.VirtualAddress)
        (b + sec.VirtualAddress + sec.VirtualSize)) s := by
  rw [hardenSection, if_neg (by simp [hd]), if_pos hw]

theorem hardenSection_skip {sec : ImageSection}
    (hd : sec.Characteristics &&& IMAGE_SCN_MEM_DISCARDABLE = 0)
    (hw : sec.Characteristics &&& IMAGE_SCN_MEM_WRITE ≠ 0)
    (b : Nat) (s : MachineState) :
    hardenSection b sec s = .ok (s, []) := by
  rw [hardenSection, if_neg (by simp [hd]), if_neg hw]

theorem hardenSection_mem_evolve {b : Nat} {sec : ImageSection}
    {s t : MachineState} {ev : List WpEv}
    (h : hardenSection b sec s = .ok (t, ev)) (a : Nat) :
    t.mem a = s.mem a ∨ t.mem a = 0 := by
  by_cases hd : sec.Characteristics &&& IMAGE_SCN_MEM_DISCARDABLE ≠ 0
  · rw [hardenSection_disc hd] at h
    simp only [Except.ok.injEq, Prod.mk.injEq] at h
    rw [← h.1]
    by_cases ha : b + sec.VirtualAddress ≤ a ∧ a < b + sec.VirtualAddress + sec.VirtualSize
    · right; simp [memzero, ha]
    · left; simp [memzero, ha]
  · rw [not_not] at hd
    by_cases hw : sec.Characteristics &&& IMAGE_SCN_MEM_WRITE = 0
    · rw [hardenSection_wp hd hw] at h
      left
      rw [wpLoop_mem_eq h]
    · rw [hardenSection_skip hd hw] at h
      simp only [Except.ok.injEq, Prod.mk.injEq] at h
      left
      rw [← h.1]

theorem hardenSection_pte_evolve {b : Nat} {sec : ImageSection}
    {s t : MachineState} {ev : List WpEv}
    (h : hardenSection b sec s = .ok (t, ev)) (q : Nat) :
    t.pte q = s.pte q ∨ t.pte q = clearW (s.pte q) := by
  by_cases hd : sec.Characteristics &&& IMAGE_SCN_MEM_DISCARDABLE ≠ 0
  · rw [hardenSection_disc hd] at h
    simp only [Except.ok.injEq, Prod.mk.injEq] at h
    rw [← h.1]
    exact Or.inl rfl
  · rw [not_not] at hd
    by_cases hw : sec.Characteristics &&& IMAGE_SCN_MEM_WRITE = 0
    · rw [hardenSection_wp hd hw] at h
      exact wpLoop_pte_evolve h q
    · rw [hardenSection_skip hd hw] at h
      simp only [Except.ok.injEq, Prod.mk.injEq] at h
      rw [← h.1]
      exact Or.inl rfl

theorem hardenSection_present_eq {b : Nat} {sec : ImageSection}
    {s t : MachineState} {ev : List WpEv}
    (h : hardenSection b sec s = .ok (t, ev)) (q : Nat) :
    (t.pte q).present = (s.pte q).present := by
  rcases hardenSection_pte_evolve h q with h2 | h2 <;> rw [h2]
  exact clearW_present _

theorem hardenSection_events {b : Nat} {sec : ImageSection}
    {s t : MachineState} {ev : List WpEv}
    (h : hardenSection b sec s = .ok (t, ev)) : ev = secEvs b sec := by
  by_cases hd : sec.Characteristics &&& IMAGE_SCN_MEM_DISCARDABLE ≠ 0
  · rw [hardenSection_disc hd] at h
    simp only [Except.ok.injEq, Prod.mk.injEq] at h
    rw [← h.2, secEvs, if_pos hd]
  · rw [not_not] at hd
    by_cases hw : sec.Characteristics &&& IMAGE_SCN_MEM_WRITE = 0
    · rw [hardenSection_wp hd hw] at h
      rw [wpLoop_events h, secEvs, if_neg (by simp [hd]), if_pos hw]
    · rw [hardenSection_skip hd hw] at h
      simp only [Except.ok.injEq, Prod.mk.injEq] at h
      rw [← h.2, secEvs, if_neg (by simp [hd]), if_neg hw]

/-! ### The section loop of the hardening pass -/

theorem hardenSections_cons_ok {b : Nat} {sec : ImageSection}
    {rest : List ImageSection} {s t : MachineState} {ev : List WpEv}
    (h : hardenSections b (sec :: rest) s = .ok (t, ev)) :
    ∃ u ev1 ev2, hardenSection b sec s = .ok (u, ev1) ∧
      hardenSections b rest u = .ok (t, ev2) ∧ ev = ev1 ++ ev2 := by
  cases h1 : hardenSection b sec s with
  | error f =>
    simp only [hardenSections, h1] at h
    exact Except.noConfusion h
  | ok pr1 =>
    obtain ⟨u, ev1⟩ := pr1
    simp only [hardenSections, h1] at h
    cases h2 : hardenSections b rest u with
    | error f =>
      rw [h2] at h
      exact Except.noConfusion h
    | ok pr2 =>
      obtain ⟨w, ev2⟩ := pr2
      rw [h2] at h
      simp only [Except.ok.injEq, Prod.mk.injEq] at h
      obtain ⟨rfl, rfl⟩ := h
      exact ⟨u, ev1, ev2, rfl, h2, rfl⟩

theorem hardenSections_mem_evolve {b : Nat} {ss : List ImageSection}
    {s t : MachineState} {ev : List WpEv}
    (h : hardenSections b ss s = .ok (t, ev)) (a : Nat) :
    t.mem a = s.mem a ∨ t.mem a = 0 := by
  induction ss generalizing s ev with
  | nil =>
    simp only [hardenSections, Except.ok.injEq, Prod.mk.injEq] at h
    rw [← h.1]
    exact Or.inl rfl
  | cons sec rest ih =>
    obtain ⟨u, ev1, ev2, h1, h2, rfl⟩ := hardenSections_cons_ok h
    rcases ih h2 with h3 | h3
    · rw [h3]
      exact hardenSection_mem_evolve h1 a
    · exact Or.inr h3

theorem hardenSections_mem_zero_mono {b : Nat} {ss : List ImageSection}
    {s t : MachineState} {ev : List WpEv}
    (h : hardenSections b ss s = .ok (t, ev)) (a : Nat)
    (hz : s.mem a = 0) : t.mem a = 0 := by
  rcases hardenSections_mem_evolve h a with h2 | h2
  · rw [h2, hz]
  · exact h2

theorem hardenSections_pte_evolve {b : Nat} {ss : List ImageSection}
    {s t : MachineState} {ev : List WpEv}
    (h : hardenSections b ss s = .ok (t, ev)) (q : Nat) :
    t.pte q = s.pte q ∨ t.pte q = clearW (s.pte q) := by
  induction ss generalizing s ev with
  | nil =>
    simp only [hardenSections, Except.ok.injEq, Prod.mk.injEq] at h
    rw [← h.1]
    exact Or.inl rfl
  | cons sec rest ih =>
    obtain ⟨u, ev1, ev2, h1, h2, rfl⟩ := hardenSections_cons_ok h
    rcases ih h2 with h3 | h3 <;> rcases hardenSection_pte_evolve h1 q with h4 | h4 <;>
      rw [h3, h4]
    · exact Or.inl rfl
    · exact Or.inr rfl
    · exact Or.inr rfl
    · exact Or.inr (clearW_clearW _)

theorem hardenSections_present_eq {b : Nat} {ss : List ImageSection}
    {s t : MachineState} {ev : List WpEv}
    (h : hardenSections b ss s = .ok (t, ev)) (q : Nat) :
    (t.pte q).present = (s.pte q).present := by
  rcases hardenSections_pte_evolve h q with h2 | h2 <;> rw [h2]
  exact clearW_present _

theorem hardenSections_writable_mono {b : Nat} {ss : List ImageSection}
    {s t : MachineState} {ev : List WpEv}
    (h : hardenSections b ss s = .ok (t, ev)) (q : Nat)
    (hw : (s.pte q).writable = false) : (t.pte q).writable = false := by
  rcases hardenSections_pte_evolve h q with h2 | h2 <;> rw [h2]
  · exact hw
  · rfl

theorem hardenSections_events {b : Nat} {ss : List ImageSection}
    {s t : MachineState} {ev : List WpEv}
    (h : hardenSections b ss s = .ok (t, ev)) : ev = hardenEvs b ss := by
  induction ss generalizing s ev with
  | nil =>
    simp only [hardenSections, Except.ok.injEq, Prod.mk.injEq] at h
    rw [← h.2]
    rfl
  | cons sec rest ih =>
    obtain ⟨u, ev1, ev2, h1, h2, rfl⟩ := hardenSections_cons_ok h
    rw [hardenSection_events h1, ih h2]
    rfl

theorem hardenSections_disc_zero {b : Nat} {ss : List ImageSection}
    {s t : MachineState} {ev : List WpEv}
    (h : hardenSections b ss s = .ok (t, ev)) {sec : ImageSection}
    (hmem : sec ∈ ss)
    (hd : sec.Characteristics &&& IMAGE_SCN_MEM_DISCARDABLE ≠ 0) :
    ∀ a, b + sec.VirtualAddress ≤ a →
      a < b + sec.VirtualAddress + sec.VirtualSize → t.mem a = 0 := by
  induction ss generalizing s ev with
  | nil => cases hmem
  | cons sec0 rest ih =>
    obtain ⟨u, ev1, ev2, h1, h2, rfl⟩ := hardenSections_cons_ok h
    rcases List.mem_cons.1 hmem with rfl | hmem
    · intro a ha1 ha2
      rw [hardenSection_disc hd] at h1
      simp only [Except.ok.injEq, Prod.mk.injEq] at h1
      refine hardenSections_mem_zero_mono h2 a ?_
      rw [← h1.1]
      simp [memzero, ha1, ha2]
    · exact ih h2 hmem

theorem hardenSections_wp_pages {b : Nat} {ss : List ImageSection}
    {s t : MachineState} {ev : List WpEv}
    (h : hardenSections b ss s = .ok (t, ev)) {sec : ImageSection}
    (hmem : sec ∈ ss)
    (hd : sec.Characteristics &&& IMAGE_SCN_MEM_DISCARDABLE = 0)
    (hw : sec.Characteristics &&& IMAGE_SCN_MEM_WRITE = 0) :
    ∀ p ∈ pagesFrom (b + sec.VirtualAddress)
        (b + sec.VirtualAddress + sec.VirtualSize),
      (s.pte (p / page_size)).present = true ∧
      t.pte (p / page_size) = clearW (s.pte (p / page_size)) := by
  induction ss generalizing s ev with
  | nil => cases hmem
  | cons sec0 rest ih =>
    obtain ⟨u, ev1, ev2, h1, h2, rfl⟩ := hardenSections_cons_ok h
    rcases List.mem_cons.1 hmem with rfl | hmem
    · intro p hp
      rw [hardenSection_wp hd hw] at h1
      refine ⟨wpLoop_present_init h1 p hp, ?_⟩
      have hu := wpLoop_final h1 p hp
      rcases hardenSections_pte_evolve h2 (p / page_size) with h3 | h3 <;> rw [h3, hu]
      exact clearW_clearW _
    · intro p hp
      have hrec := ih h2 hmem p hp
      have hpres := hardenSection_present_eq h1 (p / page_size)
      refine ⟨by rw [← hpres]; exact hrec.1, ?_⟩
      rcases hardenSection_pte_evolve h1 (p / page_size) with h3 | h3 <;>
        rw [hrec.2, h3]
      exact clearW_clearW _

theorem hardenSections_hardened {b : Nat} {ss : List ImageSection}
    {s t : MachineState} {ev : List WpEv}
    (h : hardenSections b ss s = .ok (t, ev)) : HardenedFor b ss t := by
  intro sec hmem
  constructor
  · intro hd a ha1 ha2
    exact hardenSections_disc_zero h hmem hd a ha1 ha2
  · intro hd hw p hp
    obtain ⟨hpres, hcl⟩ := hardenSections_wp_pages h hmem hd hw p hp
    constructor
    · rw [hardenSections_present_eq h (p / page_size)]
      exact hpres
    · rw [hcl]
      rfl

theorem hardenSections_fixed {b : Nat} {ss : List ImageSection}
    {s : MachineState} (h : HardenedFor b ss s) :
    hardenSections b ss s = .ok (s, hardenEvs b ss) := by
  induction ss with
  | nil => rfl
  | cons sec rest ih =>
    obtain ⟨hdisc, hwp⟩ := h sec (List.mem_cons_self sec rest)
    have hrest : hardenSections b rest s = .ok (s, hardenEvs b rest) :=
      ih (fun sec2 hm => h sec2 (List.mem_cons_of_mem sec hm))
    by_cases hd : sec.Characteristics &&& IMAGE_SCN_MEM_DISCARDABLE ≠ 0
    · have hstep : hardenSection b sec s = .ok (s, []) := by
        rw [hardenSection_disc hd,
          memzero_eq_self s (b + sec.VirtualAddress) sec.VirtualSize
            (fun a ha1 ha2 => hdisc hd a ha1 ha2)]
      simp only [hardenSections, hstep, hrest, hardenEvs, List.flatMap_cons]
      rw [secEvs, if_pos hd]
    · rw [not_not] at hd
      by_cases hw : sec.Characteristics &&& IMAGE_SCN_MEM_WRITE = 0
      · have hstep : hardenSection b sec s =
            .ok (s, (pagesFrom (b + sec.VirtualAddress)
              (b + sec.VirtualAddress + sec.VirtualSize)).flatMap
                (fun p => [WpEv.edit p, WpEv.flush p])) := by
          rw [hardenSection_wp hd hw]
          exact wpLoop_fixed (hwp hd hw)
        simp only [hardenSections, hstep, hrest, hardenEvs, List.flatMap_cons]
        rw [secEvs, if_neg (by simp [hd]), if_pos hw]
      · have hstep : hardenSection b sec s = .ok (s, []) :=
          hardenSection_skip hd hw b s
        simp only [hardenSections, hstep, hrest, hardenEvs, List.flatMap_cons]
        rw [secEvs, if_neg (by simp [hd]), if_neg hw]

/-!
## The claims
-/

/-- C1: in the bring-up trace of `OsInitialize`, both the kernel image's
mapping step and the page-table pool's mapping step occur before the cr3
write that activates the new root, and the interrupt unmask occurs after
every event of the image-hardening pass, as the final step before idle. -/
theorem c1_bringup_order (m : MemoryMap) (i8042 : Bool) (base : Nat)
    (ss : List ImageSection) :
    ∃ pre mid, osInitTrace m i8042 base ss =
        pre ++ [InitEv.writeCr3] ++ mid ++ hardenInitEvs base ss ++
          [InitEv.unmaskInterrupts, InitEv.idle] ∧
      InitEv.mapKernelImage ∈ pre ∧ InitEv.mapPtPool ∈ pre := by
  refine ⟨[InitEv.gfxInit, InitEv.serialInit, InitEv.parseMadt, InitEv.copyBlock,
    InitEv.allocRoot, InitEv.mapKernelImage, InitEv.mapPtPool,
    InitEv.mapFrameBuffer, InitEv.mapHpet, InitEv.mapIoApic, InitEv.mapLocalApic]
    ++ (osRuntimeMapPass m).map (fun r => InitEv.mapRuntime r.va r.pa r.count),
    [InitEv.setFbAddr, InitEv.cpuInit, InitEv.timerInit,
      if i8042 then InitEv.ps2Init else InitEv.noPs2], ?_, ?_, ?_⟩
  · simp [osInitTrace]
  · simp
  · simp

/-- C2: the hardening pass processes the section table in order and, for
each section: if discardable, its whole virtual extent reads zero
afterwards; else if not writable, every page of its extent had a present
leaf entry fetched and ends with its writable bit cleared; and a section
that is writable and non-discardable is a complete no-op. -/
theorem c2_section_dispatch (b : Nat) (ss : List ImageSection)
    (s t : MachineState) (ev : List WpEv)
    (h : hardenSections b ss s = .ok (t, ev)) :
    ∀ sec ∈ ss,
      (sec.Characteristics &&& IMAGE_SCN_MEM_DISCARDABLE ≠ 0 →
        ∀ a, b + sec.VirtualAddress ≤ a →
          a < b + sec.VirtualAddress + sec.VirtualSize → t.mem a = 0) ∧
      (sec.Characteristics &&& IMAGE_SCN_MEM_DISCARDABLE = 0 →
        sec.Characteristics &&& IMAGE_SCN_MEM_WRITE = 0 →
        ∀ p ∈ pagesFrom (b + sec.VirtualAddress)
            (b + sec.VirtualAddress + sec.VirtualSize),
          (s.pte (p / page_size)).present = true ∧
          t.pte (p / page_size) = clearW (s.pte (p / page_size))) ∧
      (sec.Characteristics &&& IMAGE_SCN_MEM_DISCARDABLE = 0 →
        sec.Characteristics &&& IMAGE_SCN_MEM_WRITE ≠ 0 →
        ∀ u, hardenSection b sec u = .ok (u, [])) := by
  intro sec hmem
  exact ⟨fun hd => hardenSections_disc_zero h hmem hd,
    fun hd hw => hardenSections_wp_pages h hmem hd hw,
    fun hd hw u => hardenSection_skip hd hw b u⟩

/-- Witness for C2 at the two-section demonstration image. -/
theorem c2_section_dispatch_witness :
    hardenSections 0 demoSections demoS0 = .ok (demoS1, demoEv) ∧
    demoS1.mem 5 = 0 := by
  have h : hardenSections 0 demoSections demoS0 = .ok (demoS1, demoEv) := by rfl
  refine ⟨h, ?_⟩
  exact (c2_section_dispatch 0 demoSections demoS0 demoS1 demoEv h secA
    (by simp [demoSections])).1 (by decide) 5 (by decide) (by decide)

/-- C3 counterexample: a map whose stride (48) is at least the minimum
descriptor size but does not divide its total size (72) is visited at
offsets 0 and 48 — two descriptors, not `72 / 48 = 1` — and the
descriptor at offset 48 extends past the total size. -/
theorem c3_counterexample :
    minDescriptorSize ≤ 48 ∧ (imdVisited 48 72).length ≠ 72 / 48 ∧
      48 ∈ imdVisited 48 72 ∧ 72 < 48 + 48 := by decide

/-- C3 (amended): for every memory map whose declared stride is at least
the minimum descriptor size and divides the total size, the iteration
advances by exactly the declared stride, visits exactly
`total_size / stride` descriptors, and never reads a descriptor lying
past `total_size`. -/
theorem c3_stride_iteration (stride size : Nat)
    (hmin : minDescriptorSize ≤ stride) (hdvd : stride ∣ size) :
    imdVisited stride size =
      (List.range (size / stride)).map (fun i => i * stride) ∧
    (imdVisited stride size).length = size / stride ∧
    ∀ o ∈ imdVisited stride size, o + stride ≤ size := by
  have h40 : (40 : Nat) ≤ stride := hmin
  have hs : 0 < stride := by omega
  have heq := imdVisited_eq stride size hs hdvd
  refine ⟨heq, by rw [heq]; simp, ?_⟩
  intro o ho
  rw [heq] at ho
  simp only [List.mem_map, List.mem_range] at ho
  obtain ⟨i, hi, rfl⟩ := ho
  have h1 : i + 1 ≤ size / stride := hi
  have h2 : (i + 1) * stride ≤ size / stride * stride :=
    Nat.mul_le_mul_right stride h1
  rw [Nat.div_mul_cancel hdvd] at h2
  rw [Nat.succ_mul] at h2
  omega

/-- Witness for C3 (amended) at stride 48, size 96. -/
theorem c3_stride_iteration_witness :
    minDescriptorSize ≤ 48 ∧ (48 : Nat) ∣ 96 ∧
    (imdVisited 48 96).length = 96 / 48 :=
  ⟨by decide, by decide, (c3_stride_iteration 48 96 (by decide) (by decide)).2.1⟩

/-- C4: `ImageNtHeaders` does reject an image whose DOS or NT magic is
wrong, returning the null sentinel without walking any section — but
`OsInitialize` dereferences that null result unconditionally (reading
`FileHeader.NumberOfSections` through it), so the hardening entry crashes
(`Fatal.nullDeref`, undefined behavior in the source) instead of aborting
through a checked fatal path. -/
theorem c4_header_rejection :
    ImageNtHeaders c4BadDosImage = none ∧ ImageNtHeaders c4BadNtImage = none ∧
    osHardenPass 0 c4BadDosImage demoS0 = .error Fatal.nullDeref ∧
    osHardenPass 0 c4BadNtImage demoS0 = .error Fatal.nullDeref :=
  ⟨rfl, rfl, rfl, rfl⟩

/-- C5: the memory-map pass maps a request exactly when some visited
descriptor has the firmware-runtime attribute bit set, and that request
carries precisely the descriptor's declared virtual start, physical
start, and page count, with no condition on the region type. -/
theorem c5_runtime_pass (m : MemoryMap) (req : MapReq) :
    req ∈ osRuntimeMapPass m ↔
      ∃ o, o ∈ imdVisited m.descriptor_size m.size ∧
        (m.descAt o).attr &&& memory_runtime ≠ 0 ∧
        req = ⟨(m.descAt o).virtual_start, (m.descAt o).physical_start,
          (m.descAt o).number_of_pages⟩ := by
  rw [osRuntimeMapPass, List.mem_filterMap]
  constructor
  · rintro ⟨o, ho, hf⟩
    dsimp only at hf
    split_ifs at hf with hc
    exact ⟨o, ho, hc, (Option.some.inj hf).symm⟩
  · rintro ⟨o, ho, hc, rfl⟩
    exact ⟨o, ho, by simp [hc]⟩

/-- C6: on a successful hardening pass the event trace is exactly, per
write-protected page in order, the permission edit immediately followed
by that page's translation flush — never a batched flush at the end. -/
theorem c6_flush_discipline (b : Nat) (ss : List ImageSection)
    (s t : MachineState) (ev : List WpEv)
    (h : hardenSections b ss s = .ok (t, ev)) :
    ev = ss.flatMap (fun sec =>
      if sec.Characteristics &&& IMAGE_SCN_MEM_DISCARDABLE ≠ 0 then []
      else if sec.Characteristics &&& IMAGE_SCN_MEM_WRITE = 0 then
        (pagesFrom (b + sec.VirtualAddress)
          (b + sec.VirtualAddress + sec.VirtualSize)).flatMap
          (fun p => [WpEv.edit p, WpEv.flush p])
      else []) := by
  rw [hardenSections_events h]
  rfl

/-- Witness for C6 at the two-section demonstration image. -/
theorem c6_flush_discipline_witness :
    hardenSections 0 demoSections demoS0 = .ok (demoS1, demoEv) ∧
    demoEv = demoSections.flatMap (fun sec =>
      if sec.Characteristics &&& IMAGE_SCN_MEM_DISCARDABLE ≠ 0 then []
      else if sec.Characteristics &&& IMAGE_SCN_MEM_WRITE = 0 then
        (pagesFrom (0 + sec.VirtualAddress)
          (0 + sec.VirtualAddress + sec.VirtualSize)).flatMap
          (fun p => [WpEv.edit p, WpEv.flush p])
      else []) := by
  have h : hardenSections 0 demoSections demoS0 = .ok (demoS1, demoEv) := by rfl
  exact ⟨h, c6_flush_discipline 0 demoSections demoS0 demoS1 demoEv h⟩

/-- C7: for each page of a non-writable, non-discardable section, the
permission edit clears only the writable bit: afterwards the leaf entry
is non-writable, still present (with the present bit it had before,
which the fetch requires to be set), and its physical target and
remaining fields are unchanged. -/
theorem c7_edit_frame (b : Nat) (ss : List ImageSection)
    (s t : MachineState) (ev : List WpEv)
    (h : hardenSections b ss s = .ok (t, ev)) :
    ∀ sec ∈ ss,
      sec.Characteristics &&& IMAGE_SCN_MEM_DISCARDABLE = 0 →
      sec.Characteristics &&& IMAGE_SCN_MEM_WRITE = 0 →
      ∀ p ∈ pagesFrom (b + sec.VirtualAddress)
          (b + sec.VirtualAddress + sec.VirtualSize),
        (t.pte (p / page_size)).writable = false ∧
        (t.pte (p / page_size)).present = true ∧
        (t.pte (p / page_size)).present = (s.pte (p / page_size)).present ∧
        (t.pte (p / page_size)).phys = (s.pte (p / page_size)).phys ∧
        (t.pte (p / page_size)).rest = (s.pte (p / page_size)).rest := by
  intro sec hmem hd hw p hp
  obtain ⟨hpres, hcl⟩ := hardenSections_wp_pages h hmem hd hw p hp
  rw [hcl]
  exact ⟨rfl, by rw [clearW_present]; exact hpres, clearW_present _, rfl, rfl⟩

/-- Witness for C7 at section B's single page. -/
theorem c7_edit_frame_witness :
    hardenSections 0 demoSections demoS0 = .ok (demoS1, demoEv) ∧
    (demoS1.pte (2 * page_size / page_size)).writable = false ∧
    (demoS1.pte (2 * page_size / page_size)).present = true := by
  have h : hardenSections 0 demoSections demoS0 = .ok (demoS1, demoEv) := by rfl
  have h2 := c7_edit_frame 0 demoSections demoS0 demoS1 demoEv h secB
    (by simp [demoSections]) (by decide) (by decide) (2 * page_size) (by decide)
  exact ⟨h, h2.1, h2.2.1⟩

/-- C8: the hardening pass is idempotent — re-running it on the state it
produced succeeds, changes nothing, and emits the same event trace
(zeroed sections stay zero, read-only entries are cleared again with no
net change, writable sections remain untouched). -/
theorem c8_idempotent (b : Nat) (ss : List ImageSection)
    (s t : MachineState) (ev : List WpEv)
    (h : hardenSections b ss s = .ok (t, ev)) :
    hardenSections b ss t = .ok (t, ev) := by
  rw [hardenSections_events h]
  exact hardenSections_fixed (hardenSections_hardened h)

/-- Witness for C8 at the two-section demonstration image. -/
theorem c8_idempotent_witness :
    hardenSections 0 demoSections demoS0 = .ok (demoS1, demoEv) ∧
    hardenSections 0 demoSections demoS1 = .ok (demoS1, demoEv) := by
  have h : hardenSections 0 demoSections demoS0 = .ok (demoS1, demoEv) := by rfl
  exact ⟨h, c8_idempotent 0 demoSections demoS0 demoS1 demoEv h⟩

/-- C9 counterexample: on a map whose declared stride (8) is smaller
than the minimum descriptor size, the caller does not refuse — the
memory-map pass iterates the buffer with that stride and issues mapping
requests. -/
theorem c9_counterexample :
    badStrideMap.descriptor_size < minDescriptorSize ∧
    osRuntimeMapPass badStrideMap =
      [⟨0xFFFF800000001000, 0x1000, 4⟩, ⟨0xFFFF800000001000, 0x1000, 4⟩] ∧
    osRuntimeMapPass badStrideMap ≠ [] := by decide

/-- C9 (amended): the caller performs no stride validation — even when
the declared stride is smaller than the minimum descriptor size, the
memory-map pass of `OsInitialize` iterates the buffer with the declared
stride (and visits at least one descriptor whenever the map is
non-empty) instead of treating the malformed map as fatal. -/
theorem c9_no_stride_validation (m : MemoryMap)
    (h1 : m.descriptor_size < minDescriptorSize)
    (h2 : 0 < m.descriptor_size) :
    osRuntimeMapPass m =
      (imdVisited m.descriptor_size m.size).filterMap (fun o =>
        let d := m.descAt o
        if d.attr &&& memory_runtime ≠ 0 then
          some ⟨d.virtual_start, d.physical_start, d.number_of_pages⟩
        else none) ∧
    (0 < m.size → imdVisited m.descriptor_size m.size ≠ []) := by
  refine ⟨rfl, fun hsz => ?_⟩
  rw [imdVisited]
  cases hs : m.size with
  | zero => omega
  | succ n =>
    simp [imdVisit]

/-- Witness for C9 (amended) at the stride-8 map. -/
theorem c9_no_stride_validation_witness :
    badStrideMap.descriptor_size < minDescriptorSize ∧
    0 < badStrideMap.descriptor_size ∧ 0 < badStrideMap.size ∧
    imdVisited badStrideMap.descriptor_size badStrideMap.size ≠ [] :=
  ⟨by decide, by decide, by decide,
    (c9_no_stride_validation badStrideMap (by decide) (by decide)).2 (by decide)⟩

/-- C10: the descriptor cursor advances by exactly the declared stride
each iteration; with a positive stride the loop of
`IterateMemoryDescriptors` exits after finitely many steps for every
total size, and with a stride of zero it never exits on any non-empty
map, so a positive stride is a necessary precondition for totality. -/
theorem c10_loop_termination (stride size : Nat) :
    (∀ n, imdOffsetAfter stride (n + 1) = imdOffsetAfter stride n + stride) ∧
    (0 < stride → imdLoopExits stride size) ∧
    (stride = 0 → 0 < size → ¬ imdLoopExits stride size) := by
  refine ⟨fun n => rfl, fun hs => ⟨size, ?_⟩, ?_⟩
  · rw [imdOffsetAfter_eq]
    have h1 : size * 1 ≤ size * stride := Nat.mul_le_mul_left size hs
    omega
  · rintro rfl hsz ⟨n, hn⟩
    rw [imdOffsetAfter_eq] at hn
    simp only [Nat.mul_zero] at hn
    omega

/-- Witness for C10 at strides 48 and 0 over a 96-byte map. -/
theorem c10_loop_termination_witness :
    imdLoopExits 48 96 ∧ ¬ imdLoopExits 0 96 :=
  ⟨(c10_loop_termination 48 96).2.1 (by decide),
    (c10_loop_termination 0 96).2.2 rfl (by decide)⟩
